import Mathlib

/-!
Verification development for the `music_sample_machine` repository
(`src/sample.rs`, `src/effect.rs`).

The Rust code works with trait objects `Box<dyn Sample>` over a closed world
of four concrete shapes: `SineWave`, `WaveForm`, `MultiChannel` and
`Composition`.  We embed that closed world as one inductive type.  Sample
values (`f32` amplitudes) are modelled as real numbers; sample rates (`u32`),
lengths (`usize`) and channel counts are modelled as `Nat`, except that the
cast `self.channels.len() as u16` in `MultiChannel::channels` is modelled
faithfully by reduction modulo 2^16.  The `f32` arithmetic of the
`LinearFadeEcho` fade loop, whose branch `fade > 0.0` decides a loop count,
is modelled exactly as rationals with round-to-nearest-even at 24 bits of
precision.  Rust panics (`unwrap`, out-of-bounds indexing) cannot be values
of a total function; the functions below return the value the non-panicking
executions return, and panic-freedom is captured by separate predicates.
-/

namespace MusicMachine

/-- `RATE` in `sample.rs`: the default sample rate. -/
def RATE : ℕ := 44100

/-- Modulus of the `as u16` cast. -/
def U16 : ℕ := 65536

/-- The closed world of `dyn Sample` shapes:
`SineWave { frequency, amplitude, sample_rate, length }`,
`WaveForm { sample_rate, waveform }`,
`MultiChannel { sample_rate, length, channels }`,
`Composition { sample_rate, length, channels, tracks, starts }`. -/
inductive Sample : Type where
  | sine (frequency amplitude : ℝ) (sample_rate length : ℕ)
  | wave (sample_rate : ℕ) (data : List ℝ)
  | multi (sample_rate length : ℕ) (chans : List Sample)
  | comp (sample_rate length channels : ℕ)
      (tracks : List Sample) (starts : List (List ℕ))

namespace Sample

/-- The `sample_rate()` trait method: each shape returns its stored rate. -/
def sample_rate : Sample → ℕ
  | sine _ _ r _ => r
  | wave r _ => r
  | multi r _ _ => r
  | comp r _ _ _ _ => r

/-- The `length()` trait method: `SineWave` and the containers return the
stored field, `WaveForm` returns `self.waveform.len()`. -/
def length : Sample → ℕ
  | sine _ _ _ n => n
  | wave _ w => w.length
  | multi _ n _ => n
  | comp _ n _ _ _ => n

/-- The `channels()` trait method: `1` for the mono shapes,
`self.channels.len() as u16` for `MultiChannel` (the `u16` cast truncates),
the stored `channels` field for `Composition`. -/
def channels : Sample → ℕ
  | sine _ _ _ _ => 1
  | wave _ _ => 1
  | multi _ _ cs => cs.length % U16
  | comp _ _ ch _ _ => ch

/-- The `tracks` field of a `Composition` (empty for other shapes). -/
def tracksOf : Sample → List Sample
  | comp _ _ _ ts _ => ts
  | _ => []

/-- The `starts` field of a `Composition` (empty for other shapes). -/
def startsOf : Sample → List (List ℕ)
  | comp _ _ _ _ ss => ss
  | _ => []

end Sample

/-- The inner accumulation loop of `Composition::waveform`:
`for (t, val) in track.iter().enumerate() { waveform[t + start] += val; }`.
We walk the track values in order, adding each at buffer position
`start`, `start + 1`, ....  `List.set` drops a write past the end of the
buffer, where the Rust indexing would panic; panic-freedom is the separate
claim C10. -/
def addAt : List ℝ → ℕ → List ℝ → List ℝ
  | buf, _, [] => buf
  | buf, start, v :: vs => addAt (buf.set start (buf.getD start 0 + v)) (start + 1) vs

/-- The body of `Composition::waveform` after the channel check: an output
buffer of `length` zeros, accumulated over every track and every scheduled
start of that track. -/
def mixFold (len : ℕ) (tws : List (List ℝ)) (starts : List (List ℕ)) : List ℝ :=
  (tws.zip starts).foldl (fun buf p => p.2.foldl (fun b start => addAt b start p.1) buf)
    (List.replicate len 0)

/-- The buffer built by `SineWave::waveform`: for each `step` in
`0..length`, `t = (step as f32) * 1.0 / (sample_rate as f32)` and the
value pushed is `amplitude * (2.0 * PI * frequency * t).sin()`. -/
noncomputable def sineData (f a : ℝ) (r n : ℕ) : List ℝ :=
  (List.range n).map fun (step : ℕ) =>
    a * Real.sin (2 * Real.pi * f * ((step : ℝ) * 1 / (r : ℝ)))

/-- The `waveform(channel)` trait method.
* `SineWave`: `None` for `channel > 0`, else the sine buffer `sineData`.
* `WaveForm`: `None` for `channel > 0`, else a copy of the stored buffer.
* `MultiChannel`: `self.channels.get(channel)` and delegate to that
  member's channel `0`, `None` if the index is out of range.
* `Composition`: `None` for `channel >= self.channels`, else the
  accumulated mix; the source unwraps each track's waveform
  (`track.waveform(channel).unwrap()`), which we model with default `[]`
  (panic-freedom is claim C10). -/
noncomputable def Sample.waveform : Sample → ℕ → Option (List ℝ)
  | .sine f a r n, c =>
      if 0 < c then none
      else some (sineData f a r n)
  | .wave _ w, c => if 0 < c then none else some w
  | .multi _ _ cs, c =>
      match h : cs.get? c with
      | some s => s.waveform 0
      | none => none
  | .comp _ len ch tracks starts, c =>
      if ch ≤ c then none
      else some (mixFold len (tracks.attach.map fun t => (t.1.waveform c).getD []) starts)
  termination_by s _ => sizeOf s
  decreasing_by
  · have hm : s ∈ cs := List.get?_mem h
    have := List.sizeOf_lt_of_mem hm
    simp only [Sample.multi.sizeOf_spec]
    omega
  · have hm : t.1 ∈ tracks := t.2
    have := List.sizeOf_lt_of_mem hm
    simp only [Sample.comp.sizeOf_spec]
    omega

namespace MultiChannel

/-- `MultiChannel::new()`: empty, rate and length `0`. -/
def new : Sample := .multi 0 0 []

/-- `MultiChannel::add_channel(track)`: error when `track.channels() > 1`;
when the member list is empty, adopt the track's rate and length; otherwise
error on a rate or length mismatch; push a clone of the track. -/
def add_channel (m track : Sample) : Option Sample :=
  match m with
  | .multi r len cs =>
      if 1 < track.channels then none
      else if cs.length = 0 then some (.multi track.sample_rate track.length [track])
      else if track.sample_rate ≠ r then none
      else if track.length ≠ len then none
      else some (.multi r len (cs ++ [track]))
  | _ => none

/-- `MultiChannel::new_dual(left, right)`: errors when the lengths differ,
the rates differ, or either argument's `channels() != 1`. -/
def new_dual (left right : Sample) : Option Sample :=
  if left.length ≠ right.length then none
  else if left.sample_rate ≠ right.sample_rate then none
  else if left.channels ≠ 1 then none
  else if right.channels ≠ 1 then none
  else some (.multi left.sample_rate left.length [left, right])

end MultiChannel

/-- The second half of `sample_sec` / `add_track_sec` / `add_track_id_sec`:
`(start * (rate as f32)) as usize`.  The `as usize` cast truncates toward
zero and maps negative values to `0`, which on the model's exact reals is
`Nat.floor`. -/
noncomputable def secToIdx (t : ℝ) (rate : ℕ) : ℕ := ⌊t * (rate : ℝ)⌋₊

namespace Composition

/-- `Composition::new()`: all fields zero / empty. -/
def new : Sample := .comp 0 0 0 [] []

/-- `Composition::add_track(track, start)`: with no tracks yet, adopt the
track's rate and channel count and set `length = track.length() + start`;
otherwise error on a rate or channel-count mismatch and raise `length` to
`track.length() + start` when that exceeds it.  Returns the new state and
the track id `self.tracks.len()` (its index before the push). -/
def add_track (s track : Sample) (start : ℕ) : Option (Sample × ℕ) :=
  match s with
  | .comp r len ch tracks starts =>
      if tracks.isEmpty then
        some (.comp track.sample_rate (track.length + start) track.channels
          (tracks ++ [track]) (starts ++ [[start]]), tracks.length)
      else if track.sample_rate ≠ r then none
      else if track.channels ≠ ch then none
      else
        some (.comp r (max len (track.length + start)) ch
          (tracks ++ [track]) (starts ++ [[start]]), tracks.length)
  | _ => none

/-- `Composition::add_track_sec(track, start)`: converts seconds with the
composition's own (possibly still `0`) sample rate, then `add_track`. -/
noncomputable def add_track_sec (s track : Sample) (start : ℝ) : Option (Sample × ℕ) :=
  add_track s track (secToIdx start s.sample_rate)

/-- `Composition::add_track_id(id, start)`: error when `id` is not a
registered track index; raise `length` to `tracks[id].length() + start`
when that exceeds it; push `start` onto `starts[id]`. -/
def add_track_id (s : Sample) (id start : ℕ) : Option Sample :=
  match s with
  | .comp r len ch tracks starts =>
      if h : id < tracks.length then
        some (.comp r (max len ((tracks.get ⟨id, h⟩).length + start)) ch tracks
          (starts.set id (starts.getD id [] ++ [start])))
      else none
  | _ => none

/-- `Composition::add_track_id_sec(id, start)`. -/
noncomputable def add_track_id_sec (s : Sample) (id : ℕ) (start : ℝ) : Option Sample :=
  add_track_id s id (secToIdx start s.sample_rate)

end Composition

/-- The default `Sample::sample(start, end)` method: a fresh `MultiChannel`,
then for each channel a `WaveForm::from` of the slice
`waveform(channel).unwrap()[start..end]` appended via `add_channel`.
The slice is modelled as `take stop` then `drop start` (its value whenever
the Rust slicing does not panic); both `unwrap`s are modelled with their
non-panicking value as default. -/
noncomputable def Sample.sample (s : Sample) (start stop : ℕ) : Sample :=
  (List.range s.channels).foldl
    (fun m c =>
      (MultiChannel.add_channel m
        (.wave RATE ((((s.waveform c).getD []).take stop).drop start))).getD m)
    MultiChannel.new

/-- The default `Sample::sample_sec(start, end)` method:
`(start * rate) as usize` and `(end * rate) as usize`, then `sample`. -/
noncomputable def Sample.sample_sec (s : Sample) (start stop : ℝ) : Sample :=
  s.sample (secToIdx start s.sample_rate) (secToIdx stop s.sample_rate)

/-- Following the spec's words, for comparison with `Sample.sample_sec`:
"converts seconds to sample indices via `round(time * sample_rate)` then
delegates to `sub_range`". -/
noncomputable def Sample.sample_sec_round (s : Sample) (start stop : ℝ) : Sample :=
  s.sample (round (start * (s.sample_rate : ℝ))).toNat
    (round (stop * (s.sample_rate : ℝ))).toNat

/-- Modelled from the spec: the `scale` operation called by
`LinearFadeEcho::apply` (`sample.scale(fade)?`) has no definition under
`src/`; §4.4 and §9 of the spec describe it as "a 'scale' operation
producing a same-shape Sample with every sample multiplied by the gain",
so we map every stored amplitude (for `SineWave`, the amplitude factor of
every produced sample) by the gain, preserving the shape, and never fail. -/
def Sample.scale : Sample → ℝ → Sample
  | .sine f a r n, g => .sine f (a * g) r n
  | .wave r w, g => .wave r (w.map fun v => v * g)
  | .multi r len cs, g => .multi r len (cs.attach.map fun c => c.1.scale g)
  | .comp r len ch ts ss, g => .comp r len ch (ts.attach.map fun t => t.1.scale g) ss
  termination_by s _ => sizeOf s
  decreasing_by
  · have := List.sizeOf_lt_of_mem c.2
    simp only [Sample.multi.sizeOf_spec]
    omega
  · have := List.sizeOf_lt_of_mem t.2
    simp only [Sample.comp.sizeOf_spec]
    omega

/-- Round-to-nearest integer with ties to even. -/
def roundNE (x : ℚ) : ℤ :=
  let f := ⌊x⌋
  if x - f < 1 / 2 then f
  else if 1 / 2 < x - f then f + 1
  else if f % 2 = 0 then f else f + 1

/-- Rounding an exact rational to the nearest `f32` (normal range;
the fade loop never leaves it): 24 significant bits, ties to even. -/
def roundF32 (x : ℚ) : ℚ :=
  if x = 0 then 0
  else
    let e : ℤ := Int.log 2 |x|
    let m : ℚ := (roundNE (|x| * 2 ^ (23 - e)) : ℚ) * 2 ^ (e - 23)
    if x < 0 then -m else m

/-- `f32` subtraction: exact difference, rounded. -/
def f32sub (a b : ℚ) : ℚ := roundF32 (a - b)

/-- The nearest `f32` to the literal `0.2` (`fade_slope` in the claim). -/
def fslope : ℚ := 13421773 / 67108864

/-- The loop of `LinearFadeEcho::apply`:
`while fade > 0.0 { echo.add_track(&*sample.scale(fade)?, delay)?;
fade -= self.fade_slope; delay += self.delay; }`, with `fade` arithmetic in
`f32`.  The loop has no bound in the source; we thread explicit fuel and
return `none` when it runs out with the guard still true, so exhaustion is
never mistaken for normal exit. -/
noncomputable def echoLoop (s : Sample) (d0 : ℕ) (slope : ℚ) :
    ℕ → ℚ → ℕ → Sample → Option Sample
  | 0, fade, _, acc => if 0 < fade then none else some acc
  | fuel + 1, fade, delay, acc =>
      if 0 < fade then
        match Composition.add_track acc (s.scale (fade : ℝ)) delay with
        | some (acc2, _) => echoLoop s d0 slope fuel (f32sub fade slope) (delay + d0) acc2
        | none => none
      else some acc

/-- `LinearFadeEcho::apply(sample)` for `LinearFadeEcho { delay, fade_slope }`:
`fade` starts at `1.0 - fade_slope` (in `f32`), `delay` starts at
`self.delay`.  Fuel `64` covers every loop the claims consider. -/
noncomputable def LinearFadeEcho.apply (delay : ℕ) (slope : ℚ) (s : Sample) : Option Sample :=
  echoLoop s delay slope 64 (f32sub 1 slope) delay Composition.new

/-- The samples reachable through the public in-memory constructors and
append operations of `sample.rs`: `SineWave::new` (rate `RATE`),
`WaveForm::from` (rate `RATE`), `MultiChannel::new` / `new_dual` /
`add_channel`, and `Composition::new` / `add_track` / `add_track_id`
(the `_sec` variants delegate to the latter two).  The file-reading
constructors (`from_mp3`, `from_wav`) are external-I/O boundaries and out
of scope. -/
inductive Reach : Sample → Prop where
  | sine (f : ℝ) (n : ℕ) (a : ℝ) : Reach (.sine f a RATE n)
  | wave (w : List ℝ) : Reach (.wave RATE w)
  | mnew : Reach MultiChannel.new
  | mdual (l r m : Sample) : Reach l → Reach r →
      MultiChannel.new_dual l r = some m → Reach m
  | madd (m t m2 : Sample) : Reach m → Reach t →
      MultiChannel.add_channel m t = some m2 → Reach m2
  | cnew : Reach Composition.new
  | cadd (s t s2 : Sample) (start id : ℕ) : Reach s → Reach t →
      Composition.add_track s t start = some (s2, id) → Reach s2
  | caddid (s s2 : Sample) (id start : ℕ) : Reach s →
      Composition.add_track_id s id start = some s2 → Reach s2

/-- Well-formedness: the shape constraints under which every channel query
succeeds.  A `MultiChannel` holds fewer than 2^16 members, each well-formed,
single-channel, and of the container's length; a `Composition`'s tracks are
well-formed with the container's channel count.  The code's `add_channel`
check `channels() > 1` admits zero-channel members, so reachability does
not imply well-formedness (claims C3, C4, C10). -/
inductive WF : Sample → Prop where
  | sine (f a : ℝ) (r n : ℕ) : WF (.sine f a r n)
  | wave (r : ℕ) (w : List ℝ) : WF (.wave r w)
  | multi (r len : ℕ) (cs : List Sample)
      (h16 : cs.length < U16)
      (hwf : ∀ s ∈ cs, WF s)
      (hmem : ∀ s ∈ cs, Sample.channels s = 1 ∧ Sample.length s = len) :
      WF (.multi r len cs)
  | comp (r len ch : ℕ) (tracks : List Sample) (starts : List (List ℕ))
      (hwf : ∀ t ∈ tracks, WF t)
      (hch : ∀ t ∈ tracks, Sample.channels t = ch) :
      WF (.comp r len ch tracks starts)

/-- `max` over the scheduled starts of one track of `start + track.length()`. -/
def innerBound (t : Sample) (sts : List ℕ) : ℕ :=
  (sts.map fun st => st + t.length).foldr max 0

/-- `max` over all (track, start) pairs of `start + track.length()`
(`0` when there are none): the value `Composition::length` is claimed to
maintain. -/
def pairBound (tracks : List Sample) (starts : List (List ℕ)) : ℕ :=
  ((tracks.zip starts).map fun p => innerBound p.1 p.2).foldr max 0

theorem waveform_sine (f a : ℝ) (r n c : ℕ) :
    Sample.waveform (.sine f a r n) c =
      if 0 < c then none else some (sineData f a r n) := by
  rw [Sample.waveform]

theorem sineData_length (f a : ℝ) (r n : ℕ) : (sineData f a r n).length = n := by
  simp [sineData]

theorem sineData_getD (f a : ℝ) (r n t : ℕ) (ht : t < n) :
    (sineData f a r n).getD t 0 =
      a * Real.sin (2 * Real.pi * f * ((t : ℝ) * 1 / (r : ℝ))) := by
  simp [sineData, List.getD_eq_getElem?_getD, List.getElem?_map, List.getElem?_range ht]

theorem waveform_wave (r : ℕ) (w : List ℝ) (c : ℕ) :
    Sample.waveform (.wave r w) c = if 0 < c then none else some w := by
  rw [Sample.waveform]

theorem waveform_multi_get {cs : List Sample} {c : ℕ} {s : Sample}
    (r len : ℕ) (h : cs.get? c = some s) :
    Sample.waveform (.multi r len cs) c = s.waveform 0 := by
  rw [Sample.waveform]
  split
  · rename_i heq; rw [h] at heq; cases heq; rfl
  · rename_i heq; rw [h] at heq; cases heq

theorem waveform_multi_none {cs : List Sample} {c : ℕ}
    (r len : ℕ) (h : cs.get? c = none) :
    Sample.waveform (.multi r len cs) c = none := by
  rw [Sample.waveform]
  split
  · rename_i heq; rw [h] at heq; cases heq
  · rfl

theorem waveform_comp_lt {ch c : ℕ} (r len : ℕ) (ts : List Sample)
    (ss : List (List ℕ)) (h : c < ch) :
    Sample.waveform (.comp r len ch ts ss) c =
      some (mixFold len (ts.map fun t => (t.waveform c).getD []) ss) := by
  rw [Sample.waveform, if_neg (by omega)]
  simp [List.map_attach]

theorem waveform_comp_ge {ch c : ℕ} (r len : ℕ) (ts : List Sample)
    (ss : List (List ℕ)) (h : ch ≤ c) :
    Sample.waveform (.comp r len ch ts ss) c = none := by
  rw [Sample.waveform, if_pos h]

theorem scale_sample_rate (s : Sample) (g : ℝ) :
    (s.scale g).sample_rate = s.sample_rate := by
  cases s <;> rw [Sample.scale] <;> rfl

theorem scale_length (s : Sample) (g : ℝ) : (s.scale g).length = s.length := by
  cases s <;> rw [Sample.scale] <;> simp [Sample.length]

theorem scale_channels (s : Sample) (g : ℝ) : (s.scale g).channels = s.channels := by
  cases s <;> rw [Sample.scale] <;> simp [Sample.channels]

theorem foldrMax_append (l : List ℕ) (x : ℕ) :
    (l ++ [x]).foldr max 0 = max (l.foldr max 0) x := by
  induction l with
  | nil => simp [Nat.max_comm]
  | cons a l ih => simp [ih, Nat.max_assoc]

theorem le_foldrMax {l : List ℕ} {y : ℕ} (h : y ∈ l) : y ≤ l.foldr max 0 := by
  induction l with
  | nil => cases h
  | cons a l ih =>
      rcases List.mem_cons.1 h with rfl | h2
      · exact Nat.le_max_left _ _
      · exact le_trans (ih h2) (Nat.le_max_right _ _)

theorem pairBound_nil : pairBound [] [] = 0 := rfl

theorem pairBound_cons (t : Sample) (ts : List Sample) (s : List ℕ)
    (ss : List (List ℕ)) :
    pairBound (t :: ts) (s :: ss) = max (innerBound t s) (pairBound ts ss) := rfl

theorem innerBound_append (t : Sample) (sts : List ℕ) (st : ℕ) :
    innerBound t (sts ++ [st]) = max (innerBound t sts) (st + t.length) := by
  simp only [innerBound, List.map_append, List.map_cons, List.map_nil]
  exact foldrMax_append _ _

theorem pairBound_append (ts : List Sample) (ss : List (List ℕ))
    (hlen : ts.length = ss.length) (t : Sample) (st : ℕ) :
    pairBound (ts ++ [t]) (ss ++ [[st]]) = max (pairBound ts ss) (st + t.length) := by
  induction ts generalizing ss with
  | nil =>
      cases ss with
      | nil => simp [pairBound, innerBound, Nat.max_comm]
      | cons s ss => cases hlen
  | cons a ts ih =>
      cases ss with
      | nil => cases hlen
      | cons s ss =>
          simp only [List.cons_append, pairBound_cons,
            ih ss (by simpa using hlen)]
          exact (Nat.max_assoc _ _ _).symm

theorem pairBound_set (ts : List Sample) (ss : List (List ℕ))
    (hlen : ts.length = ss.length) (id : ℕ) (hid : id < ts.length) (st : ℕ) :
    pairBound ts (ss.set id (ss.getD id [] ++ [st])) =
      max (pairBound ts ss) (st + (ts.get ⟨id, hid⟩).length) := by
  induction ts generalizing ss id with
  | nil => cases hid
  | cons t ts ih =>
      cases ss with
      | nil => cases hlen
      | cons s ss =>
          cases id with
          | zero =>
              simp only [List.set_cons_zero, List.getD_cons_zero, pairBound_cons,
                innerBound_append, List.get]
              exact Nat.max_right_comm _ _ _
          | succ id =>
              simp only [List.set_cons_succ, List.getD_cons_succ, pairBound_cons,
                ih ss (by simpa using hlen) id (by simpa using hid), List.get]
              exact (Nat.max_assoc _ _ _).symm

theorem le_pairBound {ts : List Sample} {ss : List (List ℕ)}
    {p : Sample × List ℕ} (hp : p ∈ ts.zip ss) {st : ℕ} (hst : st ∈ p.2) :
    st + p.1.length ≤ pairBound ts ss := by
  have h1 : st + p.1.length ≤ innerBound p.1 p.2 :=
    le_foldrMax (List.mem_map.2 ⟨st, hst, rfl⟩)
  have h2 : innerBound p.1 p.2 ≤ pairBound ts ss :=
    le_foldrMax (List.mem_map.2 ⟨p, hp, rfl⟩)
  omega


/-- The contribution of one scheduled copy list to output index `j`:
each start `st` with `st ≤ j < st + vals.length` contributes
`vals[j - st]`, every other start contributes nothing. -/
def contribAt (vals : List ℝ) (sts : List ℕ) (j : ℕ) : ℝ :=
  (sts.map fun st => if st ≤ j ∧ j < st + vals.length then vals.getD (j - st) 0 else 0).sum

theorem addAt_length (vs : List ℝ) (buf : List ℝ) (st : ℕ) :
    (addAt buf st vs).length = buf.length := by
  induction vs generalizing buf st with
  | nil => rfl
  | cons v vs ih => simp [addAt, ih]

theorem addAt_getD (vs : List ℝ) (buf : List ℝ) (st j : ℕ) (hj : j < buf.length) :
    (addAt buf st vs).getD j 0 =
      buf.getD j 0 + (if st ≤ j ∧ j < st + vs.length then vs.getD (j - st) 0 else 0) := by
  induction vs generalizing buf st with
  | nil =>
      have h : ¬(st ≤ j ∧ j < st + ([] : List ℝ).length) := by
        simp only [List.length_nil]; omega
      simp [addAt, h]
  | cons v vs ih =>
      rw [addAt, ih _ _ (by simpa using hj)]
      by_cases hst : j = st
      · subst hst
        have h1 : (buf.set j (buf.getD j 0 + v)).getD j 0 = buf.getD j 0 + v := by
          simp [List.getD_eq_getElem?_getD, List.getElem?_set_self,
            List.getElem?_eq_getElem, hj]
        have h2 : ¬(j + 1 ≤ j ∧ j < j + 1 + vs.length) := by omega
        have h3 : j ≤ j ∧ j < j + (v :: vs).length := by
          simp only [List.length_cons]; omega
        rw [if_neg h2, if_pos h3, h1, Nat.sub_self, List.getD_cons_zero]
        ring
      · have h1 : (buf.set st (buf.getD st 0 + v)).getD j 0 = buf.getD j 0 := by
          simp [List.getD_eq_getElem?_getD, List.getElem?_set_ne (Ne.symm hst)]
        rw [h1]
        by_cases hle : st ≤ j
        · have hsucc : st + 1 ≤ j := by omega
          by_cases hub : j < st + 1 + vs.length
          · have c1 : st + 1 ≤ j ∧ j < st + 1 + vs.length := ⟨hsucc, hub⟩
            have c2 : st ≤ j ∧ j < st + (v :: vs).length := by
              simp only [List.length_cons]; omega
            have hidx : j - st = (j - (st + 1)) + 1 := by omega
            rw [if_pos c1, if_pos c2, hidx, List.getD_cons_succ]
          · have c1 : ¬(st + 1 ≤ j ∧ j < st + 1 + vs.length) := by omega
            have c2 : ¬(st ≤ j ∧ j < st + (v :: vs).length) := by
              simp only [List.length_cons]; omega
            rw [if_neg c1, if_neg c2]
        · have c1 : ¬(st + 1 ≤ j ∧ j < st + 1 + vs.length) := by omega
          have c2 : ¬(st ≤ j ∧ j < st + (v :: vs).length) := by omega
          rw [if_neg c1, if_neg c2]

theorem foldStarts_length (sts : List ℕ) (vals : List ℝ) (buf : List ℝ) :
    (sts.foldl (fun b st => addAt b st vals) buf).length = buf.length := by
  induction sts generalizing buf with
  | nil => rfl
  | cons st sts ih => simp [ih, addAt_length]

theorem foldStarts_getD (sts : List ℕ) (vals : List ℝ) (buf : List ℝ) (j : ℕ)
    (hj : j < buf.length) :
    (sts.foldl (fun b st => addAt b st vals) buf).getD j 0 =
      buf.getD j 0 + contribAt vals sts j := by
  induction sts generalizing buf with
  | nil => simp [contribAt]
  | cons st sts ih =>
      rw [List.foldl_cons, ih _ (by simpa [addAt_length] using hj),
        addAt_getD _ _ _ _ hj]
      simp only [contribAt, List.map_cons, List.sum_cons]
      ring

theorem foldPairs_length (ps : List (List ℝ × List ℕ)) (buf : List ℝ) :
    (ps.foldl (fun b p => p.2.foldl (fun bb st => addAt bb st p.1) b) buf).length =
      buf.length := by
  induction ps generalizing buf with
  | nil => rfl
  | cons p ps ih => simp [ih, foldStarts_length]

theorem foldPairs_getD (ps : List (List ℝ × List ℕ)) (buf : List ℝ) (j : ℕ)
    (hj : j < buf.length) :
    (ps.foldl (fun b p => p.2.foldl (fun bb st => addAt bb st p.1) b) buf).getD j 0 =
      buf.getD j 0 + (ps.map fun p => contribAt p.1 p.2 j).sum := by
  induction ps generalizing buf with
  | nil => simp
  | cons p ps ih =>
      rw [List.foldl_cons, ih _ (by simpa [foldStarts_length] using hj),
        foldStarts_getD _ _ _ _ hj]
      simp only [List.map_cons, List.sum_cons]
      ring

theorem mixFold_length (len : ℕ) (tws : List (List ℝ)) (starts : List (List ℕ)) :
    (mixFold len tws starts).length = len := by
  simp [mixFold, foldPairs_length]

theorem mixFold_getD (len : ℕ) (tws : List (List ℝ)) (starts : List (List ℕ))
    (j : ℕ) (hj : j < len) :
    (mixFold len tws starts).getD j 0 =
      ((tws.zip starts).map fun p => contribAt p.1 p.2 j).sum := by
  rw [mixFold, foldPairs_getD _ _ _ (by simpa using hj)]
  simp [List.getD_eq_getElem?_getD, List.getElem?_replicate, hj]

/-- The `Composition` invariant maintained by `add_track` / `add_track_id`:
parallel `tracks` and `starts`, `length` equal to the max of
`start + track.length()` over all pairs, and every track agreeing with the
composition's channel count and sample rate. -/
theorem reach_comp_inv {s : Sample} (hs : Reach s) :
    ∀ r len ch tracks starts, s = .comp r len ch tracks starts →
      tracks.length = starts.length ∧ len = pairBound tracks starts ∧
      ∀ t ∈ tracks, t.channels = ch ∧ t.sample_rate = r := by
  induction hs with
  | sine f n a => intro r len ch tracks starts h; cases h
  | wave w => intro r len ch tracks starts h; cases h
  | mnew => intro r len ch tracks starts h; cases h
  | mdual l rr m hl hr hd ihl ihr =>
      intro r len ch tracks starts h
      subst h
      rw [MultiChannel.new_dual] at hd
      split_ifs at hd <;> cases hd
  | madd m t m2 hm ht ha ihm iht =>
      intro r len ch tracks starts h
      subst h
      cases m <;> rw [MultiChannel.add_channel] at ha
      case multi => split_ifs at ha <;> cases ha
      all_goals cases ha
  | cnew =>
      intro r len ch tracks starts h
      rw [Composition.new] at h
      injection h with h1 h2 h3 h4 h5
      subst h1; subst h2; subst h3; subst h4; subst h5
      exact ⟨rfl, rfl, by simp⟩
  | cadd s t s2 start id hsr htr ha ihs iht =>
      intro r len ch tracks starts h
      subst h
      cases s with
      | comp r0 len0 ch0 ts0 ss0 =>
          have inv := ihs r0 len0 ch0 ts0 ss0 rfl
          rw [Composition.add_track] at ha
          by_cases he : ts0.isEmpty
          · rw [if_pos he] at ha
            have hts0 : ts0 = [] := List.isEmpty_iff.1 he
            subst hts0
            have hss0 : ss0 = [] := by
              have := inv.1
              simpa using List.length_eq_zero.1 this.symm
            subst hss0
            injection ha with hp
            injection hp with hc hid
            injection hc with e1 e2 e3 e4 e5
            subst e1; subst e2; subst e3; subst e4; subst e5
            refine ⟨rfl, ?_, ?_⟩
            · simp only [List.nil_append, pairBound_cons, pairBound_nil,
                innerBound, List.map_cons, List.map_nil, List.foldr]
              omega
            · intro t2 ht2
              simp only [List.nil_append, List.mem_singleton] at ht2
              subst ht2
              exact ⟨rfl, rfl⟩
          · rw [if_neg he] at ha
            split_ifs at ha with hrr hcc
            cases ha
            obtain ⟨l1, l2, l3⟩ := inv
            refine ⟨by simp [l1], ?_, ?_⟩
            · rw [pairBound_append ts0 ss0 l1, ← l2, Nat.add_comm t.length start]
            · intro t2 ht2
              rcases List.mem_append.1 ht2 with h2 | h2
              · exact l3 t2 h2
              · rcases List.mem_singleton.1 h2 with rfl
                constructor
                · omega
                · omega
      | sine f a r1 n1 => simp [Composition.add_track] at ha
      | wave r1 w1 => simp [Composition.add_track] at ha
      | multi r1 l1 c1 => simp [Composition.add_track] at ha
  | caddid s s2 id start hsr ha ihs =>
      intro r len ch tracks starts h
      subst h
      cases s with
      | comp r0 len0 ch0 ts0 ss0 =>
          have inv := ihs r0 len0 ch0 ts0 ss0 rfl
          rw [Composition.add_track_id] at ha
          split_ifs at ha with hid
          injection ha with hc
          injection hc with e1 e2 e3 e4 e5
          subst e1; subst e2; subst e3; subst e4; subst e5
          obtain ⟨l1, l2, l3⟩ := inv
          refine ⟨by simp [l1], ?_, l3⟩
          rw [pairBound_set ts0 ss0 l1 id hid]
          omega
      | sine f a r1 n1 => simp [Composition.add_track_id] at ha
      | wave r1 w1 => simp [Composition.add_track_id] at ha
      | multi r1 l1 c1 => simp [Composition.add_track_id] at ha

/-- For a well-formed sample, `waveform(c)` is defined with exactly
`length()` elements for `c < channels()` and absent for `c ≥ channels()`. -/
theorem wf_waveform {s : Sample} (h : WF s) :
    (∀ c, c < s.channels → ∃ w, s.waveform c = some w ∧ w.length = s.length) ∧
    (∀ c, s.channels ≤ c → s.waveform c = none) := by
  induction h with
  | sine f a r n =>
      constructor
      · intro c hc
        have hc0 : c = 0 := by
          simp only [Sample.channels] at hc; omega
        subst hc0
        refine ⟨sineData f a r n, ?_, ?_⟩
        · rw [waveform_sine, if_neg (by omega)]
        · rw [sineData_length]; rfl
      · intro c hc
        have : 0 < c := by simp only [Sample.channels] at hc; omega
        rw [waveform_sine, if_pos this]
  | wave r w =>
      constructor
      · intro c hc
        have hc0 : c = 0 := by
          simp only [Sample.channels] at hc; omega
        subst hc0
        exact ⟨w, by rw [waveform_wave, if_neg (by omega)], rfl⟩
      · intro c hc
        have : 0 < c := by simp only [Sample.channels] at hc; omega
        rw [waveform_wave, if_pos this]
  | multi r len cs h16 hwf hmem ih =>
      have hch : Sample.channels (.multi r len cs) = cs.length := by
        simp only [Sample.channels]
        exact Nat.mod_eq_of_lt h16
      constructor
      · intro c hc
        rw [hch] at hc
        obtain ⟨m, hm⟩ : ∃ m, cs.get? c = some m :=
          ⟨_, List.get?_eq_get hc⟩
        have hmm : m ∈ cs := List.get?_mem hm
        obtain ⟨hch1, hlen1⟩ := hmem m hmm
        obtain ⟨w, hw, hwl⟩ := (ih m hmm).1 0 (by rw [hch1]; omega)
        refine ⟨w, ?_, ?_⟩
        · rw [waveform_multi_get r len hm, hw]
        · rw [hwl, hlen1]; rfl
      · intro c hc
        rw [hch] at hc
        exact waveform_multi_none r len (List.get?_eq_none.2 hc)
  | comp r len ch tracks starts hwf hch ih =>
      constructor
      · intro c hc
        refine ⟨_, waveform_comp_lt r len tracks starts hc, ?_⟩
        rw [mixFold_length]; rfl
      · intro c hc
        exact waveform_comp_ge r len tracks starts hc

/-- `SineWave::new(frequency, length, amplitude)`: rate `RATE`. -/
def SineWave.new (frequency : ℝ) (length : ℕ) (amplitude : ℝ) : Sample :=
  .sine frequency amplitude RATE length

/-- Claim C6: a `SineWave` built with frequency `f`, length `n` and
amplitude `a` has `waveform(0)` defined with exactly `n` elements, the
element at index `t` being `a * sin(2*pi*f*t / sample_rate)`; its first
element is `0.0` when `f > 0`, and `waveform(c)` is absent for `c ≠ 0`. -/
theorem C6_sine_waveform (f : ℝ) (n : ℕ) (a : ℝ) :
    ∃ w, (SineWave.new f n a).waveform 0 = some w ∧
      w.length = n ∧
      (∀ t, t < n →
        w.getD t 0 = a * Real.sin (2 * Real.pi * f * (t : ℝ) / (RATE : ℝ))) ∧
      (0 < f → 0 < n → w.getD 0 0 = 0) ∧
      (∀ c, c ≠ 0 → (SineWave.new f n a).waveform c = none) := by
  refine ⟨sineData f a RATE n, ?_, sineData_length f a RATE n, ?_, ?_, ?_⟩
  · rw [SineWave.new, waveform_sine, if_neg (by omega)]
  · intro t ht
    rw [sineData_getD f a RATE n t ht]
    congr 1
    ring
  · intro _ hn
    rw [sineData_getD f a RATE n 0 hn]
    simp
  · intro c hc
    rw [SineWave.new, waveform_sine, if_pos (by omega)]

theorem C6_witness :
    (1 : ℕ) < 2 ∧ (0 : ℝ) < 1 ∧ (0 : ℕ) < 2 ∧ (3 : ℕ) ≠ 0 ∧
    ∃ w, (SineWave.new 1 2 1).waveform 0 = some w ∧
      w.length = 2 ∧
      w.getD 1 0 = 1 * Real.sin (2 * Real.pi * 1 * (1 : ℝ) / (RATE : ℝ)) ∧
      w.getD 0 0 = 0 ∧
      (SineWave.new 1 2 1).waveform 3 = none := by
  obtain ⟨w, h1, h2, h3, h4, h5⟩ := C6_sine_waveform 1 2 1
  exact ⟨by norm_num, by norm_num, by norm_num, by norm_num,
    w, h1, h2, by simpa using h3 1 (by norm_num),
    h4 (by norm_num) (by norm_num), h5 3 (by norm_num)⟩

/-- Claim C9: on a freshly created `Composition`, `add_track_sec(t, sec)`
schedules `t` at sample index `0` for every non-negative `sec`, because the
sample rate is still `0` and `(sec * 0.0) as usize` is `0`: the result is
exactly that of `add_track(t, 0)`, registering start offset `0`. -/
theorem C9_add_track_sec_zero_rate (t : Sample) (sec : ℝ) (hsec : 0 ≤ sec) :
    Composition.add_track_sec Composition.new t sec =
      some (.comp t.sample_rate (t.length + 0) t.channels [t] [[0]], 0) := by
  rw [Composition.add_track_sec]
  have hidx : secToIdx sec (Sample.sample_rate Composition.new) = 0 := by
    rw [Composition.new]
    simp [secToIdx, Sample.sample_rate]
  rw [hidx, Composition.new, Composition.add_track]
  rfl

theorem C9_witness :
    (0 : ℝ) ≤ 5 ∧
    Composition.add_track_sec Composition.new (.wave RATE [1, 2]) 5 =
      some (.comp (Sample.wave RATE [1, 2]).sample_rate
        ((Sample.wave RATE [1, 2]).length + 0)
        (Sample.wave RATE [1, 2]).channels [.wave RATE [1, 2]] [[0]], 0) :=
  ⟨by norm_num, C9_add_track_sec_zero_rate (.wave RATE [1, 2]) 5 (by norm_num)⟩

/-- Claim C4, counterexample: the claim says `add_channel(s)` errors
whenever `s.channels() != 1`, but the code only checks `channels() > 1`:
appending an empty `MultiChannel` (zero channels) succeeds. -/
theorem C4_counterexample :
    Sample.channels MultiChannel.new ≠ 1 ∧
    MultiChannel.add_channel MultiChannel.new MultiChannel.new =
      some (.multi 0 0 [MultiChannel.new]) := by
  constructor
  · decide
  · rfl

/-- Claim C4 (amended): `add_channel(s)` errors iff `s.channels() > 1`, or
the container is non-empty and `s`'s rate or length mismatches; an empty
container adopts `s`'s rate and length; on success `s` is appended as the
next channel. -/
theorem C4_add_channel_spec (r len : ℕ) (cs : List Sample) (s : Sample) :
    (1 < s.channels → MultiChannel.add_channel (.multi r len cs) s = none) ∧
    (s.channels ≤ 1 → cs = [] →
      MultiChannel.add_channel (.multi r len cs) s =
        some (.multi s.sample_rate s.length [s])) ∧
    (s.channels ≤ 1 → cs ≠ [] → s.sample_rate = r → s.length = len →
      MultiChannel.add_channel (.multi r len cs) s =
        some (.multi r len (cs ++ [s]))) ∧
    (s.channels ≤ 1 → cs ≠ [] → (s.sample_rate ≠ r ∨ s.length ≠ len) →
      MultiChannel.add_channel (.multi r len cs) s = none) := by
  refine ⟨?_, ?_, ?_, ?_⟩
  · intro h1
    rw [MultiChannel.add_channel, if_pos h1]
  · intro h1 h2
    subst h2
    rw [MultiChannel.add_channel, if_neg (by omega)]
    simp
  · intro h1 h2 h3 h4
    rw [MultiChannel.add_channel, if_neg (by omega),
      if_neg (by have := List.length_pos.2 h2; omega), if_neg (by simp [h3]),
      if_neg (by simp [h4])]
  · intro h1 h2 h5
    rw [MultiChannel.add_channel, if_neg (by omega),
      if_neg (by have := List.length_pos.2 h2; omega)]
    rcases h5 with h5 | h5
    · rw [if_pos h5]
    · by_cases h6 : s.sample_rate ≠ r
      · rw [if_pos h6]
      · rw [if_neg h6, if_pos h5]

theorem C4_witness :
    Sample.channels (Sample.wave RATE [1]) ≤ 1 ∧ ([] : List Sample) = [] ∧
    MultiChannel.add_channel (.multi 0 0 []) (.wave RATE [1]) =
      some (.multi (Sample.wave RATE [1]).sample_rate
        (Sample.wave RATE [1]).length [.wave RATE [1]]) :=
  ⟨by decide, rfl,
    (C4_add_channel_spec 0 0 [] (.wave RATE [1])).2.1 (by decide) rfl⟩

/-- Evaluation of the default `sample` method on a single-channel sample:
one `WaveForm` holding the slice. -/
theorem sample_mono (s : Sample) (hs : s.channels = 1) (w : List ℝ)
    (hw : s.waveform 0 = some w) (a b : ℕ) :
    s.sample a b = .multi RATE ((w.take b).drop a).length
      [.wave RATE ((w.take b).drop a)] := by
  have hr1 : List.range 1 = [0] := rfl
  rw [Sample.sample, hs, hr1, List.foldl_cons, List.foldl_nil, hw]
  simp [MultiChannel.add_channel, MultiChannel.new, Sample.channels,
    Sample.sample_rate, Sample.length]

/-- Claim C7, counterexample: the spec says the time bounds are converted
with `round(time * sample_rate)`, but `sample_sec` truncates
(`as usize`): with `end = 17/441000` seconds (1.7 samples at rate 44100)
the code keeps 1 sample where the rounding description keeps 2. -/
theorem C7_counterexample :
    Sample.sample_sec (.wave RATE [0, 0]) 0 (17 / 441000) ≠
      Sample.sample_sec_round (.wave RATE [0, 0]) 0 (17 / 441000) := by
  have hw : Sample.waveform (.wave RATE [0, 0]) 0 = some [0, 0] := by
    rw [waveform_wave, if_neg (by omega)]
  have hprod : (17 / 441000 : ℝ) * ((RATE : ℕ) : ℝ) = 17 / 10 := by
    rw [RATE]; norm_num
  have hrate : Sample.sample_rate (.wave RATE [0, 0]) = RATE := rfl
  have i0 : secToIdx 0 RATE = 0 := by simp [secToIdx]
  have i1 : secToIdx (17 / 441000) RATE = 1 := by
    rw [secToIdx, hprod, Nat.floor_eq_iff (by positivity)]
    norm_num
  have i2 : (round ((17 / 441000 : ℝ) * ((RATE : ℕ) : ℝ))).toNat = 2 := by
    rw [hprod]
    norm_num [round_eq]
    decide
  have i3 : (round ((0 : ℝ) * ((RATE : ℕ) : ℝ))).toNat = 0 := by
    norm_num
  have e1 : Sample.sample_sec (.wave RATE [0, 0]) 0 (17 / 441000) =
      .multi RATE 1 [.wave RATE [0]] := by
    rw [Sample.sample_sec, hrate, i0, i1,
      sample_mono (.wave RATE [0, 0]) rfl [0, 0] hw]
    norm_num
  have e2 : Sample.sample_sec_round (.wave RATE [0, 0]) 0 (17 / 441000) =
      .multi RATE 2 [.wave RATE [0, 0]] := by
    rw [Sample.sample_sec_round, hrate, i2, i3,
      sample_mono (.wave RATE [0, 0]) rfl [0, 0] hw]
    norm_num
  rw [e1, e2]
  intro h
  have := congrArg Sample.length h
  simp [Sample.length] at this

/-- Claim C7 (amended): `sample_sec` converts each time bound to a sample
index by truncation toward zero of `time * sample_rate` (on the exact
reals, `Nat.floor`, satisfying `idx ≤ t * rate < idx + 1` for `t ≥ 0`),
not by rounding, and then delegates to the index-based `sample`. -/
theorem C7_sample_sec_trunc (s : Sample) (a b : ℝ) :
    s.sample_sec a b =
      s.sample (secToIdx a s.sample_rate) (secToIdx b s.sample_rate) ∧
    (∀ t : ℝ, ∀ rate : ℕ, 0 ≤ t →
      (secToIdx t rate : ℝ) ≤ t * (rate : ℝ) ∧
        t * (rate : ℝ) < secToIdx t rate + 1) := by
  constructor
  · rfl
  · intro t rate ht
    constructor
    · exact Nat.floor_le (by positivity)
    · exact Nat.lt_floor_add_one _

theorem C7_witness :
    (0 : ℝ) ≤ 1 ∧
    Sample.sample_sec (.wave RATE [0]) 1 1 =
      Sample.sample (.wave RATE [0])
        (secToIdx 1 (Sample.sample_rate (.wave RATE [0])))
        (secToIdx 1 (Sample.sample_rate (.wave RATE [0]))) ∧
    ((secToIdx 1 2 : ℕ) : ℝ) ≤ 1 * ((2 : ℕ) : ℝ) ∧
      1 * ((2 : ℕ) : ℝ) < (secToIdx 1 2 : ℕ) + 1 := by
  obtain ⟨h1, h2⟩ := C7_sample_sec_trunc (.wave RATE [0]) 1 1
  exact ⟨by norm_num, h1, h2 1 2 (by norm_num)⟩

/-- Claim C1: for a `Composition` and a channel `c < channels()`, provided
every track's channel-`c` waveform is present with its advertised length
(the non-panicking case, claim C10), `waveform(c)` returns exactly
`length()` values; the value at each index `j` is the sum, over every
(track, start) pair with `start ≤ j < start + track.length()`, of that
track's value at `j - start`, and `0.0` at indices covered by no pair. -/
theorem C1_comp_waveform_sum (r len ch : ℕ) (tracks : List Sample)
    (starts : List (List ℕ)) (c : ℕ) (hc : c < ch)
    (hp : ∀ t ∈ tracks, ∃ w, t.waveform c = some w ∧ w.length = t.length) :
    ∃ out, Sample.waveform (.comp r len ch tracks starts) c = some out ∧
      out.length = len ∧
      (∀ j, j < len →
        out.getD j 0 =
          ((tracks.zip starts).map fun p =>
            (p.2.map fun st =>
              if st ≤ j ∧ j < st + p.1.length
              then ((p.1.waveform c).getD []).getD (j - st) 0 else 0).sum).sum) ∧
      (∀ j, j < len →
        (∀ p ∈ tracks.zip starts, ∀ st ∈ p.2, ¬(st ≤ j ∧ j < st + p.1.length)) →
        out.getD j 0 = 0) := by
  have key : ∀ j, j < len →
      (mixFold len (tracks.map fun t => (t.waveform c).getD []) starts).getD j 0 =
        ((tracks.zip starts).map fun p =>
          (p.2.map fun st =>
            if st ≤ j ∧ j < st + p.1.length
            then ((p.1.waveform c).getD []).getD (j - st) 0 else 0).sum).sum := by
    intro j hj
    rw [mixFold_getD _ _ _ j hj, List.zip_map_left, List.map_map]
    congr 1
    apply List.map_congr_left
    intro p hp2
    obtain ⟨w, hw, hlen⟩ := hp p.1 (List.of_mem_zip hp2).1
    simp only [Function.comp, contribAt, Prod.map, id]
    rw [hw]
    simp only [Option.getD_some, hlen]
  refine ⟨mixFold len (tracks.map fun t => (t.waveform c).getD []) starts,
    waveform_comp_lt r len tracks starts hc, mixFold_length _ _ _, key, ?_⟩
  intro j hj hcov
  rw [key j hj]
  apply List.sum_eq_zero
  intro x hx
  obtain ⟨p, hpmem, rfl⟩ := List.mem_map.1 hx
  apply List.sum_eq_zero
  intro y hy
  obtain ⟨st, hst, rfl⟩ := List.mem_map.1 hy
  rw [if_neg (hcov p hpmem st hst)]

theorem C1_witness :
    (0 : ℕ) < 1 ∧
    (∀ t ∈ [Sample.wave RATE [1, 2], Sample.wave RATE [10, 20]],
      ∃ w, t.waveform 0 = some w ∧ w.length = t.length) ∧
    ∃ out,
      Sample.waveform
        (.comp RATE 3 1 [.wave RATE [1, 2], .wave RATE [10, 20]] [[0], [1]]) 0 =
        some out ∧
      out.length = 3 ∧
      (∀ j, j < 3 →
        out.getD j 0 =
          (([Sample.wave RATE [1, 2], Sample.wave RATE [10, 20]].zip
            [[0], [1]]).map fun p =>
            (p.2.map fun st =>
              if st ≤ j ∧ j < st + p.1.length
              then ((p.1.waveform 0).getD []).getD (j - st) 0 else 0).sum).sum) ∧
      (∀ j, j < 3 →
        (∀ p ∈ [Sample.wave RATE [1, 2], Sample.wave RATE [10, 20]].zip
            [[0], [1]], ∀ st ∈ p.2, ¬(st ≤ j ∧ j < st + p.1.length)) →
        out.getD j 0 = 0) := by
  have hp : ∀ t ∈ [Sample.wave RATE [1, 2], Sample.wave RATE [10, 20]],
      ∃ w, t.waveform 0 = some w ∧ w.length = t.length := by
    intro t ht
    rcases List.mem_cons.1 ht with rfl | ht2
    · exact ⟨[1, 2], by rw [waveform_wave, if_neg (by omega)], rfl⟩
    rcases List.mem_cons.1 ht2 with rfl | ht3
    · exact ⟨[10, 20], by rw [waveform_wave, if_neg (by omega)], rfl⟩
    · cases ht3
  exact ⟨by omega, hp,
    C1_comp_waveform_sum RATE 3 1 _ [[0], [1]] 0 (by omega) hp⟩

theorem mixFold_two_swap (len : ℕ) (wa wb : List ℝ) (la lb : List ℕ) :
    mixFold len [wa, wb] [la, lb] = mixFold len [wb, wa] [lb, la] := by
  apply List.ext_getElem (by rw [mixFold_length, mixFold_length])
  intro j h1 h2
  rw [mixFold_length] at h1
  rw [← List.getD_eq_getElem _ 0, ← List.getD_eq_getElem _ 0,
    mixFold_getD _ _ _ j h1, mixFold_getD _ _ _ j h1]
  simp only [List.zip_cons_cons, List.zip_nil_left, List.map_cons,
    List.map_nil, List.sum_cons, List.sum_nil]
  ring

/-- Claim C5: for two samples with equal sample rate and channel count,
adding `A` at `sa` then `B` at `sb` to a fresh `Composition` yields the
same `waveform(c)` for every valid channel `c` as adding `B` then `A`. -/
theorem C5_add_track_comm (A B : Sample) (sa sb : ℕ)
    (hr : B.sample_rate = A.sample_rate) (hc : B.channels = A.channels)
    (c : ℕ) (hcc : c < A.channels) :
    ((Composition.add_track Composition.new A sa).bind fun p =>
      (Composition.add_track p.1 B sb).map fun q => q.1.waveform c) =
    ((Composition.add_track Composition.new B sb).bind fun p =>
      (Composition.add_track p.1 A sa).map fun q => q.1.waveform c) := by
  have h1 : Composition.add_track Composition.new A sa =
      some (.comp A.sample_rate (A.length + sa) A.channels [A] [[sa]], 0) := rfl
  have h2 : Composition.add_track
      (.comp A.sample_rate (A.length + sa) A.channels [A] [[sa]]) B sb =
      some (.comp A.sample_rate (max (A.length + sa) (B.length + sb))
        A.channels [A, B] [[sa], [sb]], 1) := by
    rw [Composition.add_track, if_neg (by simp), if_neg (by simp [hr]),
      if_neg (by simp [hc])]
    rfl
  have h3 : Composition.add_track Composition.new B sb =
      some (.comp B.sample_rate (B.length + sb) B.channels [B] [[sb]], 0) := rfl
  have h4 : Composition.add_track
      (.comp B.sample_rate (B.length + sb) B.channels [B] [[sb]]) A sa =
      some (.comp B.sample_rate (max (B.length + sb) (A.length + sa))
        B.channels [B, A] [[sb], [sa]], 1) := by
    rw [Composition.add_track, if_neg (by simp), if_neg (by simp [hr]),
      if_neg (by simp [hc])]
    rfl
  rw [h1, h3, Option.some_bind, Option.some_bind, h2, h4, Option.map_some',
    Option.map_some']
  rw [hr, hc, Nat.max_comm (B.length + sb) (A.length + sa)]
  rw [waveform_comp_lt _ _ _ _ hcc, waveform_comp_lt _ _ _ _ hcc]
  rw [show ([A, B].map fun t => (t.waveform c).getD []) =
    [(A.waveform c).getD [], (B.waveform c).getD []] from rfl]
  rw [show ([B, A].map fun t => (t.waveform c).getD []) =
    [(B.waveform c).getD [], (A.waveform c).getD []] from rfl]
  rw [mixFold_two_swap]

theorem C5_witness :
    (Sample.wave RATE [2, 3]).sample_rate = (Sample.wave RATE [1]).sample_rate ∧
    (Sample.wave RATE [2, 3]).channels = (Sample.wave RATE [1]).channels ∧
    (0 : ℕ) < (Sample.wave RATE [1]).channels ∧
    ((Composition.add_track Composition.new (.wave RATE [1]) 1).bind fun p =>
      (Composition.add_track p.1 (.wave RATE [2, 3]) 0).map fun q =>
        q.1.waveform 0) =
    ((Composition.add_track Composition.new (.wave RATE [2, 3]) 0).bind fun p =>
      (Composition.add_track p.1 (.wave RATE [1]) 1).map fun q =>
        q.1.waveform 0) :=
  ⟨rfl, rfl, by decide,
    C5_add_track_comm (.wave RATE [1]) (.wave RATE [2, 3]) 1 0 rfl rfl 0
      (by decide)⟩

/-- Claim C2: for every `Composition` reachable through the public
operations, `length()` equals the maximum over all registered
(track, start) pairs of `start + track.length()`; and after every
successful `add_track_id(id, start)`, `length()` is at least its previous
value and at least `start + track(id).length()`. -/
theorem C2_length_invariant (r len ch : ℕ) (tracks : List Sample)
    (starts : List (List ℕ)) (hs : Reach (.comp r len ch tracks starts)) :
    len = pairBound tracks starts ∧
    ∀ id start s2,
      Composition.add_track_id (.comp r len ch tracks starts) id start =
        some s2 →
      len ≤ s2.length ∧
      ∀ hid : id < tracks.length,
        start + (tracks.get ⟨id, hid⟩).length ≤ s2.length := by
  obtain ⟨l1, l2, l3⟩ := reach_comp_inv hs r len ch tracks starts rfl
  refine ⟨l2, ?_⟩
  intro id start s2 ha
  rw [Composition.add_track_id] at ha
  split_ifs at ha with hid
  injection ha with h
  subst h
  simp only [Sample.length]
  constructor
  · exact Nat.le_max_left _ _
  · intro hid2
    have := Nat.le_max_right len ((tracks.get ⟨id, hid⟩).length + start)
    omega

theorem C2_witness :
    Reach (.comp RATE 3 1 [.wave RATE [5]] [[2]]) ∧
    (3 : ℕ) = pairBound [.wave RATE [5]] [[2]] ∧
    Composition.add_track_id (.comp RATE 3 1 [.wave RATE [5]] [[2]]) 0 7 =
      some (.comp RATE 8 1 [.wave RATE [5]] [[2, 7]]) ∧
    (3 : ℕ) ≤ Sample.length (.comp RATE 8 1 [.wave RATE [5]] [[2, 7]]) ∧
    7 + (Sample.wave RATE [5]).length ≤
      Sample.length (.comp RATE 8 1 [.wave RATE [5]] [[2, 7]]) := by
  have hr : Reach (.comp RATE 3 1 [.wave RATE [5]] [[2]]) :=
    Reach.cadd Composition.new (.wave RATE [5]) _ 2 0 Reach.cnew
      (Reach.wave [5]) rfl
  have hc2 := C2_length_invariant RATE 3 1 [.wave RATE [5]] [[2]] hr
  have ha : Composition.add_track_id (.comp RATE 3 1 [.wave RATE [5]] [[2]])
      0 7 = some (.comp RATE 8 1 [.wave RATE [5]] [[2, 7]]) := rfl
  exact ⟨hr, hc2.1, ha, (hc2.2 0 7 _ ha).1,
    (hc2.2 0 7 _ ha).2 (by simp)⟩

/-- The pathological container: `add_channel` only rejects samples with
`channels() > 1`, so an empty `MultiChannel` (zero channels) is accepted
as a member, after which `channels() = 1` but `waveform(0)` is `None`. -/
def mBad : Sample := .multi 0 0 [MultiChannel.new]

theorem mBad_reach : Reach mBad :=
  Reach.madd MultiChannel.new MultiChannel.new mBad Reach.mnew Reach.mnew rfl

theorem mBad_waveform : Sample.waveform mBad 0 = none := by
  rw [mBad, waveform_multi_get 0 0
    (show [MultiChannel.new].get? 0 = some MultiChannel.new from rfl)]
  exact waveform_multi_none 0 0 rfl

/-- Claim C3, counterexample: a reachable sample (an empty `MultiChannel`
appended as a channel of another) reports `channels() = 1` yet
`waveform(0)` is absent, refuting "`waveform(c)` returns a value for every
`c < channels()`". -/
theorem C3_counterexample :
    ¬ ∀ s : Sample, Reach s → ∀ c : ℕ,
        (c < s.channels → (s.waveform c).isSome) ∧
        (s.channels ≤ c → s.waveform c = none) ∧
        (∀ w, s.waveform c = some w → w.length = s.length) := by
  intro h
  have h1 := (h mBad mBad_reach 0).1 (by decide)
  rw [mBad_waveform] at h1
  cases h1

/-- Claim C3 (amended): for every reachable, well-formed sample (every
appended member or track is itself well-formed, `MultiChannel` members are
single-channel samples of the container's length, and containers stay
under 2^16 channels), `waveform(c)` is defined for every `c < channels()`
and absent for `c ≥ channels()`, and every defined waveform has exactly
`length()` elements. -/
theorem C3_waveform_ranges (s : Sample) (hr : Reach s) (hw : WF s) (c : ℕ) :
    (c < s.channels → ∃ w, s.waveform c = some w ∧ w.length = s.length) ∧
    (s.channels ≤ c → s.waveform c = none) :=
  ⟨fun h => (wf_waveform hw).1 c h, fun h => (wf_waveform hw).2 c h⟩

theorem C3_witness :
    Reach (.multi RATE 1 [.wave RATE [1]]) ∧
    WF (.multi RATE 1 [.wave RATE [1]]) ∧
    (0 : ℕ) < Sample.channels (.multi RATE 1 [.wave RATE [1]]) ∧
    (∃ w, Sample.waveform (.multi RATE 1 [.wave RATE [1]]) 0 = some w ∧
      w.length = Sample.length (.multi RATE 1 [.wave RATE [1]])) ∧
    Sample.waveform (.multi RATE 1 [.wave RATE [1]]) 2 = none := by
  have hreach : Reach (.multi RATE 1 [.wave RATE [1]]) :=
    Reach.madd MultiChannel.new (.wave RATE [1]) _ Reach.mnew
      (Reach.wave [1]) rfl
  have hwf : WF (.multi RATE 1 [.wave RATE [1]]) := by
    refine WF.multi RATE 1 [.wave RATE [1]] (by norm_num [U16]) ?_ ?_
    · intro m hm
      rcases List.mem_singleton.1 hm with rfl
      exact WF.wave RATE [1]
    · intro m hm
      rcases List.mem_singleton.1 hm with rfl
      exact ⟨rfl, rfl⟩
  refine ⟨hreach, hwf, by decide, ?_, ?_⟩
  · exact (C3_waveform_ranges _ hreach hwf 0).1 (by decide)
  · exact (C3_waveform_ranges _ hreach hwf 2).2 (by decide)

/-- The reachable composition holding the pathological track: its
channel count is `1`, but the track's `waveform(0)` is absent, so
`Composition::waveform(0)` would panic on `unwrap`. -/
def compBad : Sample := .comp 0 0 1 [mBad] [[0]]

theorem compBad_reach : Reach compBad :=
  Reach.cadd Composition.new mBad compBad 0 0 Reach.cnew mBad_reach rfl

/-- Claim C10, counterexample: a `Composition` built by `add_track` from a
reachable concrete sample whose channel-0 waveform is absent: the internal
`unwrap` in `Composition::waveform(0)` fails even though `0 < channels()`. -/
theorem C10_counterexample :
    ¬ ∀ s : Sample, Reach s → ∀ c : ℕ, c < s.channels →
        ∀ t ∈ s.tracksOf, (t.waveform c).isSome := by
  intro h
  have h1 := h compBad compBad_reach 0 (by decide) mBad (by
    rw [compBad, Sample.tracksOf]
    exact List.mem_singleton.2 rfl)
  rw [mBad_waveform] at h1
  cases h1

/-- Claim C10 (amended): for every reachable `Composition` whose tracks are
all well-formed, and every channel `c < channels()`, evaluating
`waveform(c)` cannot fail: every track's channel-`c` waveform is present,
and every accumulation write index `start + t` stays below the allocated
buffer size `length()`. -/
theorem C10_waveform_safe (r len ch : ℕ) (tracks : List Sample)
    (starts : List (List ℕ)) (hs : Reach (.comp r len ch tracks starts))
    (hwf : ∀ t ∈ tracks, WF t) (c : ℕ) (hc : c < ch) :
    (∀ t ∈ tracks, (t.waveform c).isSome) ∧
    (∀ p ∈ tracks.zip starts, ∀ st ∈ p.2,
      ∀ i, i < ((p.1.waveform c).getD []).length → st + i < len) := by
  obtain ⟨l1, l2, l3⟩ := reach_comp_inv hs r len ch tracks starts rfl
  have hsome : ∀ t ∈ tracks, ∃ w, t.waveform c = some w ∧ w.length = t.length := by
    intro t ht
    exact (wf_waveform (hwf t ht)).1 c (by rw [(l3 t ht).1]; exact hc)
  constructor
  · intro t ht
    obtain ⟨w, hw, _⟩ := hsome t ht
    rw [hw]
    rfl
  · intro p hp st hst i hi
    obtain ⟨w, hw, hwl⟩ := hsome p.1 (List.of_mem_zip hp).1
    rw [hw, Option.getD_some, hwl] at hi
    have hb : st + p.1.length ≤ pairBound tracks starts := le_pairBound hp hst
    omega

theorem C10_witness :
    Reach (.comp RATE 1 1 [.wave RATE [1]] [[0]]) ∧
    (∀ t ∈ [Sample.wave RATE [1]], WF t) ∧
    (0 : ℕ) < 1 ∧
    (∀ t ∈ [Sample.wave RATE [1]], (t.waveform 0).isSome) ∧
    (∀ p ∈ [Sample.wave RATE [1]].zip [[0]], ∀ st ∈ p.2,
      ∀ i, i < ((p.1.waveform 0).getD []).length → st + i < 1) := by
  have hreach : Reach (.comp RATE 1 1 [.wave RATE [1]] [[0]]) :=
    Reach.cadd Composition.new (.wave RATE [1]) _ 0 0 Reach.cnew
      (Reach.wave [1]) rfl
  have hwf : ∀ t ∈ [Sample.wave RATE [1]], WF t := by
    intro t ht
    rcases List.mem_singleton.1 ht with rfl
    exact WF.wave RATE [1]
  obtain ⟨g1, g2⟩ := C10_waveform_safe RATE 1 1 [.wave RATE [1]] [[0]]
    hreach hwf 0 (by omega)
  exact ⟨hreach, hwf, by omega, g1, g2⟩

theorem int_log_eval {d : ℚ} {e : ℤ} (hd : 0 < d)
    (h1 : (2 : ℚ) ^ e ≤ d) (h2 : d < (2 : ℚ) ^ (e + 1)) : Int.log 2 d = e := by
  have hle : e ≤ Int.log 2 d := (Int.zpow_le_iff_le_log (by norm_num) hd).1 h1
  have hlt : Int.log 2 d < e + 1 := (Int.lt_zpow_iff_log_lt (by norm_num) hd).1 h2
  omega

theorem roundNE_down (x : ℚ) (f : ℤ) (hf : ⌊x⌋ = f) (hlt : x - f < 1 / 2) :
    roundNE x = f := by
  rw [roundNE, hf, if_pos hlt]

theorem roundNE_up (x : ℚ) (f : ℤ) (hf : ⌊x⌋ = f) (hgt : 1 / 2 < x - f) :
    roundNE x = f + 1 := by
  rw [roundNE, hf, if_neg (by linarith), if_pos hgt]

theorem roundNE_tie_odd (x : ℚ) (f : ℤ) (hf : ⌊x⌋ = f) (heq : x - f = 1 / 2)
    (ho : ¬f % 2 = 0) : roundNE x = f + 1 := by
  rw [roundNE, hf, if_neg (by linarith), if_neg (by linarith), if_neg ho]

theorem f32sub_eval (a b d : ℚ) (e M : ℤ) (hd : a - b = d) (hd0 : 0 < d)
    (hlog : Int.log 2 d = e) (hM : roundNE (d * 2 ^ (23 - e)) = M) :
    f32sub a b = (M : ℚ) * 2 ^ (e - 23) := by
  rw [f32sub, hd, roundF32, if_neg hd0.ne']
  rw [abs_of_pos hd0, hlog]
  dsimp only
  rw [hM, if_neg (not_lt.2 hd0.le)]

theorem f32sub_eval_neg (a b d : ℚ) (e M : ℤ) (hd : a - b = -d) (hd0 : 0 < d)
    (hlog : Int.log 2 d = e) (hM : roundNE (d * 2 ^ (23 - e)) = M) :
    f32sub a b = -((M : ℚ) * 2 ^ (e - 23)) := by
  rw [f32sub, hd, roundF32,
    if_neg (by intro h; rw [neg_eq_zero] at h; exact absurd h hd0.ne'),
    abs_neg, abs_of_pos hd0, hlog]
  dsimp only
  rw [hM, if_pos (by linarith)]

/-- `1.0f32 - 0.2f32 = 0.80000001…` (`13421773 * 2^-24`). -/
theorem fade1 : f32sub 1 fslope = 13421773 / 16777216 := by
  have h := f32sub_eval 1 fslope (53687091 / 67108864) (-1) 13421773
    (by norm_num [fslope]) (by norm_num)
    (int_log_eval (by norm_num) (by norm_num) (by norm_num))
    ((roundNE_up _ 13421772 (by rw [Int.floor_eq_iff]; norm_num)
      (by norm_num)).trans (by norm_num))
  rw [h]
  norm_num

/-- Second fade: `0.60000002…` (`10066330 * 2^-24`). -/
theorem fade2 : f32sub (13421773 / 16777216) fslope = 5033165 / 8388608 := by
  have h := f32sub_eval (13421773 / 16777216) fslope (40265319 / 67108864)
    (-1) 10066330
    (by norm_num [fslope]) (by norm_num)
    (int_log_eval (by norm_num) (by norm_num) (by norm_num))
    ((roundNE_up _ 10066329 (by rw [Int.floor_eq_iff]; norm_num)
      (by norm_num)).trans (by norm_num))
  rw [h]
  norm_num

/-- Third fade: `0.40000003…` (`13421774 * 2^-25`, a round-to-even tie). -/
theorem fade3 : f32sub (5033165 / 8388608) fslope = 6710887 / 16777216 := by
  have h := f32sub_eval (5033165 / 8388608) fslope (26843547 / 67108864)
    (-2) 13421774
    (by norm_num [fslope]) (by norm_num)
    (int_log_eval (by norm_num) (by norm_num) (by norm_num))
    ((roundNE_tie_odd _ 13421773 (by rw [Int.floor_eq_iff]; norm_num)
      (by norm_num) (by decide)).trans (by norm_num))
  rw [h]
  norm_num

/-- Fourth fade: `0.20000003…` (`13421775 * 2^-26`, exact). -/
theorem fade4 : f32sub (6710887 / 16777216) fslope = 13421775 / 67108864 := by
  have h := f32sub_eval (6710887 / 16777216) fslope (13421775 / 67108864)
    (-3) 13421775
    (by norm_num [fslope]) (by norm_num)
    (int_log_eval (by norm_num) (by norm_num) (by norm_num))
    (roundNE_down _ 13421775 (by rw [Int.floor_eq_iff]; norm_num) (by norm_num))
  rw [h]
  norm_num

/-- Fifth fade: `2^-25 ≈ 3.0e-8`, still strictly positive: the loop runs a
fifth iteration that the spec's count of four misses. -/
theorem fade5 : f32sub (13421775 / 67108864) fslope = 1 / 33554432 := by
  have h := f32sub_eval (13421775 / 67108864) fslope (1 / 33554432)
    (-25) 8388608
    (by norm_num [fslope]) (by norm_num)
    (int_log_eval (by norm_num) (by norm_num) (by norm_num))
    (roundNE_down _ 8388608 (by rw [Int.floor_eq_iff]; norm_num) (by norm_num))
  rw [h]
  norm_num

/-- Sixth fade: negative, so the loop stops after five iterations. -/
theorem fade6 : f32sub (1 / 33554432) fslope = -(13421771 / 67108864) := by
  have h := f32sub_eval_neg (1 / 33554432) fslope (13421771 / 67108864)
    (-3) 13421771
    (by norm_num [fslope]) (by norm_num)
    (int_log_eval (by norm_num) (by norm_num) (by norm_num))
    (roundNE_down _ 13421771 (by rw [Int.floor_eq_iff]; norm_num) (by norm_num))
  rw [h]
  norm_num

theorem add_track_scale_first (s : Sample) (g : ℝ) (st : ℕ) :
    Composition.add_track Composition.new (s.scale g) st =
      some (.comp s.sample_rate (s.length + st) s.channels [s.scale g]
        [[st]], 0) := by
  rw [Composition.new, Composition.add_track]
  simp [scale_sample_rate, scale_length, scale_channels]

theorem add_track_scale_step (r len ch : ℕ) (tracks : List Sample)
    (starts : List (List ℕ)) (s : Sample) (g : ℝ) (st : ℕ)
    (hne : tracks.isEmpty = false) (hr2 : s.sample_rate = r)
    (hch : s.channels = ch) :
    Composition.add_track (.comp r len ch tracks starts) (s.scale g) st =
      some (.comp r (max len (s.length + st)) ch (tracks ++ [s.scale g])
        (starts ++ [[st]]), tracks.length) := by
  rw [Composition.add_track, scale_length]
  rw [if_neg (by simp [hne]), if_neg (by simp [scale_sample_rate, hr2]),
    if_neg (by simp [scale_channels, hch])]

/-- Full evaluation of `LinearFadeEcho::apply` at `fade_slope = 0.2f32`:
five scaled copies at offsets `delay, …, 5*delay`, gains the five `f32`
fades. -/
theorem echo_apply_eval (s : Sample) (d : ℕ) :
    LinearFadeEcho.apply d fslope s =
      some (.comp s.sample_rate
        (max (max (max (max (s.length + d) (s.length + (d + d)))
          (s.length + (d + d + d))) (s.length + (d + d + d + d)))
          (s.length + (d + d + d + d + d)))
        s.channels
        [s.scale ((13421773 / 16777216 : ℚ) : ℝ),
          s.scale ((5033165 / 8388608 : ℚ) : ℝ),
          s.scale ((6710887 / 16777216 : ℚ) : ℝ),
          s.scale ((13421775 / 67108864 : ℚ) : ℝ),
          s.scale ((1 / 33554432 : ℚ) : ℝ)]
        [[d], [d + d], [d + d + d], [d + d + d + d], [d + d + d + d + d]]) := by
  rw [LinearFadeEcho.apply]
  rw [show (64 : ℕ) = 63 + 1 from rfl, echoLoop, fade1, if_pos (by norm_num),
    add_track_scale_first s (((13421773 / 16777216 : ℚ) : ℝ)) d]
  dsimp only
  rw [show (63 : ℕ) = 62 + 1 from rfl, echoLoop, fade2, if_pos (by norm_num),
    add_track_scale_step _ _ _ _ _ s (((5033165 / 8388608 : ℚ) : ℝ)) (d + d)
      (by rfl) rfl rfl]
  dsimp only
  rw [show (62 : ℕ) = 61 + 1 from rfl, echoLoop, fade3, if_pos (by norm_num),
    add_track_scale_step _ _ _ _ _ s (((6710887 / 16777216 : ℚ) : ℝ))
      (d + d + d) (by rfl) rfl rfl]
  dsimp only
  rw [show (61 : ℕ) = 60 + 1 from rfl, echoLoop, fade4, if_pos (by norm_num),
    add_track_scale_step _ _ _ _ _ s (((13421775 / 67108864 : ℚ) : ℝ))
      (d + d + d + d) (by rfl) rfl rfl]
  dsimp only
  rw [show (60 : ℕ) = 59 + 1 from rfl, echoLoop, fade5, if_pos (by norm_num),
    add_track_scale_step _ _ _ _ _ s (((1 / 33554432 : ℚ) : ℝ))
      (d + d + d + d + d) (by rfl) rfl rfl]
  dsimp only
  rw [show (59 : ℕ) = 58 + 1 from rfl, echoLoop, fade6, if_neg (by norm_num)]
  rfl

/-- Claim C8, counterexample: on an input of length 1 with delay 1 and
`fade_slope = 0.2f32`, the echo composition has `length()` 6
(`Len + D * 5`), not the claimed `Len + D * 4 = 5`: in `f32` arithmetic
the fade after four decrements is `2^-25 > 0`, so a fifth copy is added. -/
theorem C8_counterexample :
    Option.map Sample.length (LinearFadeEcho.apply 1 fslope (.wave RATE [0])) =
      some 6 ∧ (6 : ℕ) ≠ 1 + 1 * 4 := by
  constructor
  · rw [echo_apply_eval (.wave RATE [0]) 1]
    rfl
  · omega

/-- Claim C8 (amended): with `fade_slope` the `f32` nearest `0.2`,
`LinearFadeEcho` executes five loop iterations (`f32` fades
`0.80000001, 0.60000002, 0.40000004, 0.20000003, 2^-25`), so the
resulting composition's `length()` is `Len + D * 5`. -/
theorem C8_echo_length (s : Sample) (d : ℕ) :
    Option.map Sample.length (LinearFadeEcho.apply d fslope s) =
      some (s.length + d * 5) := by
  rw [echo_apply_eval s d]
  simp only [Option.map_some', Sample.length]
  congr 1
  omega

end MusicMachine
